import Mathlib

/-
  Verification of the use-destructuring reconciliation/caching library.

  Shallow embedding conventions:
  * JS strings are lists of UTF-16 code units (`JsString := List Nat`, each unit < 2^16).
  * JS 32-bit integer operations are modelled on the unsigned 32-bit *bit pattern*
    (a `Nat` below 4294967296).  Signed interpretation only changes how a pattern is
    printed, never whether two patterns are equal, so equality-based reasoning
    (memo-dependency comparison) is preserved exactly.
  * `Math.imul(a, b)` keeps the low 32 bits of the product: `(a * b) % 4294967296`
    (ToUint32 of the operands commutes with the product modulo 2^32).
  * `x >>> k` on an int32 pattern is `Nat` shift right; `x >>> 0` is the identity on
    a pattern below 2^32.
  * JS function values (the synthesized mutators and removers) are embedded as data:
    a `Closure` records a unique allocation id plus the variables captured at
    synthesis time.  Reference identity of closures is equality of this data; a
    fresh allocation id is drawn from a counter threaded through reconciliation, so
    distinct synthesis events yield distinct closures.  The body of each closure is
    embedded separately as a pure transform on the whole container.
  * React's `useRef`/`useMemo` machinery at the call site is embedded as an explicit
    `Hook` state threaded through `useDestucturing` (the source function's name):
    `useMemo` is a single-slot cache compared with `Object.is` per dependency.
-/

/-- JS string as its UTF-16 code units. -/
abbrev JsString : Type := List Nat

/-- Math.imul: 32-bit wrapping product, as a bit pattern. -/
def imul (a b : Nat) : Nat := (a * b) % 4294967296

/-- Loop body of cyrb53 (`for i ... h1 = Math.imul(h1 ^ ch, 2654435761); h2 = Math.imul(h2 ^ ch, 1597334677)`). -/
def hashStringLoop : List Nat → Nat × Nat → Nat × Nat
  | [], hs => hs
  | ch :: rest, hs =>
      hashStringLoop rest (imul (hs.1 ^^^ ch) 2654435761, imul (hs.2 ^^^ ch) 1597334677)

/-- Source `hashString` (cyrb53).  `h1 >>> 0` in the return expression is the
identity on the (already unsigned, below 2^32) pattern, and `2097151 & h2`
is bitwise and. -/
def hashString (str : JsString) (seed : Nat) : Nat :=
  let h0 : Nat × Nat := (0xdeadbeef ^^^ (seed % 4294967296), 0x41c6ce57 ^^^ (seed % 4294967296))
  let p := hashStringLoop str h0
  let h1a := imul (p.1 ^^^ (p.1 >>> 16)) 2246822507
  let h1b := h1a ^^^ imul (p.2 ^^^ (p.2 >>> 13)) 3266489909
  let h2a := imul (p.2 ^^^ (p.2 >>> 16)) 2246822507
  let h2b := h2a ^^^ imul (h1b ^^^ (h1b >>> 13)) 3266489909
  4294967296 * (h2b &&& 2097151) + h1b

/-- Source `hashStrings`: `str.map(s => hashString(s)).reduce((a, b) => a ^ b, 0)`,
with `hashString`'s seed parameter at its default 0.  JS `^` applies ToInt32 to
both operands, i.e. works on the patterns modulo 2^32. -/
def hashStrings (strs : List JsString) : Nat :=
  (strs.map (fun s => hashString s 0)).foldl (fun a b => (a % 4294967296) ^^^ (b % 4294967296)) 0

/-- Key "a" as code units. -/
def keyA : JsString := [97]

/-- Key "b" as code units. -/
def keyB : JsString := [98]

/-- Key "c" as code units. -/
def keyC : JsString := [99]

/-- React SetStateAction: either a literal new value or a transform of the old value. -/
inductive SetStateAction (α : Type) where
  | value : α → SetStateAction α
  | func : (α → α) → SetStateAction α

/-- Source `evaluateSetStateAction`: call it with the old value when it is a
function, otherwise use it directly. -/
def evaluateSetStateAction : SetStateAction α → α → α
  | .value v, _ => v
  | .func f, old => f old

/-- Source `replaceAtIndex` (part with the old===new short circuit):
`const oldElement = array[index]; if (oldElement === newElement) return array;
else { const result = [...array]; result[index] = newElement; return result }`.
Equality of modelled values stands for JS `===`.  An out-of-range index reads
`undefined` in JS, which is not a value of the model; the out-of-range branch is
a no-op and the theorems are stated for in-range indices. -/
def replaceAtIndex [DecidableEq α] (array : List α) (index : Nat) (newElement : α) : List α :=
  match array[index]? with
  | some oldElement => if oldElement = newElement then array else array.set index newElement
  | none => array.set index newElement

/-- Body of the closure built by `createArrayElementSetState`:
`setElement => setArray(oldArray => replaceAtIndex(oldArray, index,
evaluateSetStateAction(setElement, oldArray[index])))`.  The whole container is
read at application time (the `oldArray` argument), never captured. -/
def arrayElementTransform [DecidableEq α] (index : Nat) (setElement : SetStateAction α)
    (oldArray : List α) : List α :=
  match oldArray[index]? with
  | some oldElem => replaceAtIndex oldArray index (evaluateSetStateAction setElement oldElem)
  | none => oldArray

/-- JS `Array.prototype.filter` with the element index as predicate input,
starting at index `j`. -/
def filterWithIndex (keep : Nat → Bool) (j : Nat) : List α → List α
  | [] => []
  | a :: rest =>
      if keep j then a :: filterWithIndex keep (j + 1) rest else filterWithIndex keep (j + 1) rest

/-- Body of the closure built by `createDeleteAction`:
`() => setArray(oldArray => oldArray.filter((_, j) => j !== index))`. -/
def deleteActionTransform (index : Nat) (oldArray : List α) : List α :=
  filterWithIndex (fun j => decide (j ≠ index)) 0 oldArray

/-- JS record as an association list in key insertion order (`Object.keys` order). -/
abbrev Record (α : Type) : Type := List (JsString × α)

/-- Lookup of a key, as JS `Map.prototype.get` / property read (first match; a JS
map or object holds each key at most once). -/
def recordGet : Record α → JsString → Option α
  | [], _ => none
  | e :: rest, k => if e.1 = k then some e.2 else recordGet rest k

/-- Update or append of a key: JS `Map.prototype.set`, object literal override
(`{...old, [key]: v}`) and property assignment all keep the original position of
an existing key and append a missing key at the end. -/
def recordSet : Record α → JsString → α → Record α
  | [], k, v => [(k, v)]
  | e :: rest, k, v => if e.1 = k then (k, v) :: rest else e :: recordSet rest k v

/-- Body of the closure built by `createObjectPropertySetState` (part of the
source with the short circuit): read the old property of the application-time
object, resolve the update argument, return the same object when unchanged,
otherwise `{...oldObject, [propertyKey]: newProperty}`.  A key absent from the
object would read `undefined` in JS, which is not a value of the model; that
branch is a no-op and the theorems are stated for present keys. -/
def objectPropertyTransform [DecidableEq α] (propertyKey : JsString)
    (setProperty : SetStateAction α) (oldObject : Record α) : Record α :=
  match recordGet oldObject propertyKey with
  | some oldProperty =>
      let newProperty := evaluateSetStateAction setProperty oldProperty
      if oldProperty = newProperty then oldObject
      else recordSet oldObject propertyKey newProperty
  | none => oldObject

/-- Single error kind of the subsystem (`UsageError` in the spec): the source
throws `Error('useDestructuring() only accepts arrays and (not-null) objects.')`
from the entry function and `Error("The argument 'key' must have at least one
character.")` from `capitalize`. -/
inductive UsageError where
  | notComposite
  | emptyKey
deriving DecidableEq

/-- Upper-casing of one UTF-16 code unit, restricted to the ASCII letters that
the renaming scheme (`set` + Capitalize) touches in practice. -/
def toUpperCode (c : Nat) : Nat := if 97 ≤ c ∧ c ≤ 122 then c - 32 else c

/-- Source `capitalize`: throws when the key is empty, else
`key.charAt(0).toUpperCase() + key.substring(1)`. -/
def capitalize : JsString → Except UsageError JsString
  | [] => .error .emptyKey
  | c :: rest => .ok (toUpperCode c :: rest)

/-- Code units of "set". -/
def setWord : JsString := [115, 101, 116]

/-- Captured variables of a synthesized closure: whole-setter reference and the
bound position (sequence) or key (record). -/
inductive Capture where
  | elemSet (setterRef : Nat) (index : Nat)
  | elemDel (setterRef : Nat) (index : Nat)
  | propSet (setterRef : Nat) (key : JsString)
deriving DecidableEq

/-- A synthesized JS function value: allocation id (two closures produced by
distinct synthesis events have distinct ids, which embeds reference identity)
plus the captured data. -/
structure Closure where
  alloc : Nat
  cap : Capture
deriving DecidableEq

/-- Source `createArrayElementSetState`: closes over the setter and the index;
its body is embedded as `arrayElementTransform`. -/
def createArrayElementSetState (alloc : Nat) (setterRef : Nat) (index : Nat) : Closure :=
  Closure.mk alloc (Capture.elemSet setterRef index)

/-- Source `createDeleteAction`: closes over the setter and the index; its body
is embedded as `deleteActionTransform`. -/
def createDeleteAction (alloc : Nat) (setterRef : Nat) (index : Nat) : Closure :=
  Closure.mk alloc (Capture.elemDel setterRef index)

/-- Source `createObjectPropertySetState`: closes over the setter and the key;
its body is embedded as `objectPropertyTransform`. -/
def createObjectPropertySetState (alloc : Nat) (setterRef : Nat) (key : JsString) : Closure :=
  Closure.mk alloc (Capture.propSet setterRef key)

/-- An entry of the sequence accessor cache: (mutator, remover). -/
abbrev CachePair : Type := Closure × Closure

/-- Source `ArrayCache`. -/
abbrev ArrayCache : Type := List CachePair

/-- Source `ObjectCache` (a JS Map from key to mutator, in insertion order). -/
abbrev ObjectCache : Type := Record Closure

/-- Source `limit`: `limit >= array.length ? array : array.slice(0, limit)`. -/
def limit (array : List α) (lim : Nat) : List α :=
  if array.length ≤ lim then array else array.take lim

/-- Source `append`: `count < 1 ? [] : Array(count).fill(undefined).map((_, i) =>
factory(offset + i))`.  In the shrinking call `count` is negative in JS; both the
JS guard and truncated Nat subtraction produce the empty list. -/
def append (offset count : Nat) (factory : Nat → α) : List α :=
  if count < 1 then [] else (List.range count).map (fun i => factory (offset + i))

/-- Result of one `memoizeArray` call: the new `ref.current`, the returned
triples, and the advanced allocation counter. -/
structure ArrayMemoResult (α : Type) where
  cache : ArrayCache
  output : List (α × Closure × Closure)
  counter : Nat

/-- Source `memoizeArray`: when the cached length differs from the current
length, rebuild `ref.current` as `[...limit(cache, array.length),
...append(cache.length, array.length - cache.length, i => [mutator_i,
remover_i])]`; the factory draws two fresh allocation ids per pair.  The
returned triples pair `array[i]` with the cached closures; the JS index-based
`array.map((s, i) => [s, cache[i][0], cache[i][1]])` is expressed as a zip,
which agrees because the reconciled cache has exactly the array's length. -/
def memoizeArray (ctr : Nat) (cache : ArrayCache) (array : List α) (setterRef : Nat) :
    ArrayMemoResult α :=
  let newCache :=
    if cache.length ≠ array.length then
      limit cache array.length ++
        append cache.length (array.length - cache.length) (fun i =>
          (createArrayElementSetState (ctr + 2 * (i - cache.length)) setterRef i,
           createDeleteAction (ctr + 2 * (i - cache.length) + 1) setterRef i))
    else cache
  ArrayMemoResult.mk newCache
    ((array.zip newCache).map (fun sc => (sc.1, sc.2.1, sc.2.2)))
    (ctr + 2 * (array.length - cache.length))

/-- Result of one `memoizeObject` call: the new `ref.current` map, the
`setMethods` record, and the advanced allocation counter. -/
structure ObjectMemoResult where
  cache : ObjectCache
  methods : Record Closure
  counter : Nat

/-- Loop of the source `memoizeObject` over `keysOf(state)`:
`const val = oldMap.get(key) ?? createObjectPropertySetState(setState, key);
newMap.set(key, val); setMethods[`set` + capitalize(key)] = val;`.
The `??` choice is the outer match (its two branches duplicate the capitalize
check; JS resolves the choice before `capitalize` runs, but a `capitalize`
throw aborts the loop before `ref.current` is replaced, so no state that the
throw could expose differs between the two orders).  A thrown error propagates
out of the whole call. -/
def memoizeObjectGo (setterRef : Nat) (oldMap : ObjectCache) :
    List JsString → ObjectCache → Record Closure → Nat → Except UsageError ObjectMemoResult
  | [], newMap, methods, ctr => .ok (ObjectMemoResult.mk newMap methods ctr)
  | key :: rest, newMap, methods, ctr =>
      match recordGet oldMap key with
      | some v =>
          match capitalize key with
          | .error e => .error e
          | .ok capKey =>
              memoizeObjectGo setterRef oldMap rest (recordSet newMap key v)
                (recordSet methods (setWord ++ capKey) v) ctr
      | none =>
          match capitalize key with
          | .error e => .error e
          | .ok capKey =>
              memoizeObjectGo setterRef oldMap rest
                (recordSet newMap key (createObjectPropertySetState ctr setterRef key))
                (recordSet methods (setWord ++ capKey)
                  (createObjectPropertySetState ctr setterRef key))
                (ctr + 1)

/-- Source `memoizeObject`: build a fresh map over the current keys, reusing
`oldMap` entries and synthesizing mutators for new keys, then replace
`ref.current` wholesale (the stale keys of `oldMap` are not copied forward). -/
def memoizeObject (ctr : Nat) (oldMap : ObjectCache) (keys : List JsString) (setterRef : Nat) :
    Except UsageError ObjectMemoResult :=
  memoizeObjectGo setterRef oldMap keys [] [] ctr

/-- A composite argument as classified by the entry function.  `nullValue` and
`scalar` stand for every JS value that is rejected (`null`, numbers, strings,
booleans, undefined). -/
inductive Composite (α : Type) where
  | arr : List α → Composite α
  | obj : Record α → Composite α
  | nullValue : Composite α
  | scalar : Composite α

/-- Source `isObjectOrArray`: `obj !== null && typeof obj === 'object'`. -/
def isObjectOrArray : Composite α → Bool
  | .arr _ => true
  | .obj _ => true
  | .nullValue => false
  | .scalar => false

/-- Second entry of the useMemo dependency array:
`isArr ? state : hashStrings(keysOf(state))` — the array reference on the
sequence path, the key-set fingerprint on the record path.  An array reference
and a number are never Object.is-equal, hence an inductive. -/
inductive DepKey where
  | arrRef (stateRef : Nat)
  | objHash (fingerprint : Nat)
deriving DecidableEq

/-- Full dependency array `[setState, isArr ? state : hashStrings(keysOf(state))]`. -/
abbrev Deps : Type := Nat × DepKey

/-- The `useRef` cell `setStateRef.current`. -/
inductive RefCache where
  | arrCache : ArrayCache → RefCache
  | objCache : ObjectCache → RefCache

/-- Return value of one derivation call. -/
inductive Output (α : Type) where
  | arrOut : List (α × Closure × Closure) → Output α
  | objOut : Record Closure → Output α

/-- Per-call-site persistent state: allocation counter (embedding closure
identity), the `useRef` cell, and the `useMemo` slot. -/
structure Hook (α : Type) where
  counter : Nat
  refCurrent : Option RefCache
  memo : Option (Deps × Output α)

/-- State of a call site before its first render. -/
def initialHook : Hook α := Hook.mk 0 none none

/-- Model of React useMemo single-slot lookup: the stored value is returned
exactly when every dependency matches the stored ones by Object.is. -/
def lookupMemo (memo : Option (Deps × Output α)) (deps : Deps) : Option (Output α) :=
  match memo with
  | some d => if d.1 = deps then some d.2 else none
  | none => none

/-- Source `narrowRef` on the sequence path combined with the `useRef` initial
value: the current cell if it already holds an array cache, else a reset `[]`. -/
def currentArrayCache : Option RefCache → ArrayCache
  | some (.arrCache c) => c
  | _ => []

/-- Source `narrowRef` on the record path combined with the `useRef` initial
value: the current cell if it already holds a key map, else a reset empty map. -/
def currentObjectCache : Option RefCache → ObjectCache
  | some (.objCache m) => m
  | _ => []

/-- Source `useDestucturing` (the entry function keeps this spelling), one
render: reject non-composites, then dispatch on `Array.isArray`; inside the
memo callback `narrowRef` resets a kind-mismatched (or absent) `ref.current`
before `memoizeArray` / `memoizeObject` runs; on a memo hit nothing is
recomputed and the call site state is untouched. -/
def useDestucturing (h : Hook α) (input : Composite α) (stateRef setterRef : Nat) :
    Except UsageError (Output α × Hook α) :=
  match input with
  | .nullValue => .error .notComposite
  | .scalar => .error .notComposite
  | .arr array =>
      let deps : Deps := (setterRef, DepKey.arrRef stateRef)
      match lookupMemo h.memo deps with
      | some out => .ok (out, h)
      | none =>
          let r := memoizeArray h.counter (currentArrayCache h.refCurrent) array setterRef
          .ok (Output.arrOut r.output,
            Hook.mk r.counter (some (RefCache.arrCache r.cache))
              (some (deps, Output.arrOut r.output)))
  | .obj fields =>
      let deps : Deps := (setterRef, DepKey.objHash (hashStrings (fields.map Prod.fst)))
      match lookupMemo h.memo deps with
      | some out => .ok (out, h)
      | none =>
          match memoizeObject h.counter (currentObjectCache h.refCurrent)
              (fields.map Prod.fst) setterRef with
          | .error e => .error e
          | .ok r =>
              .ok (Output.objOut r.methods,
                Hook.mk r.counter (some (RefCache.objCache r.cache))
                  (some (deps, Output.objOut r.methods)))

theorem imul_lt (a b : Nat) : imul a b < 4294967296 :=
  Nat.mod_lt _ (by norm_num)

theorem xor_lt_u32 {a b : Nat} (ha : a < 4294967296) (hb : b < 4294967296) :
    a ^^^ b < 4294967296 := by
  have h : (4294967296 : Nat) = 2 ^ 32 := by norm_num
  rw [h] at ha hb ⊢
  exact Nat.xor_lt_two_pow ha hb

theorem digest_bound {a : Nat} (b : Nat) (ha : a < 4294967296) :
    4294967296 * (b &&& 2097151) + a < 9007199254740992 := by
  have hle : b &&& 2097151 ≤ 2097151 := Nat.and_le_right
  have hmul := Nat.mul_le_mul_left 4294967296 hle
  omega

/-- C10: hashString is a total function (hence deterministic) whose result is a
natural number strictly below 2^53 = 9007199254740992: the summand
`4294967296 * (h2 & 2097151)` is at most 4294967296 * 2097151 and `h1 >>> 0`
is below 4294967296, so the digest is exactly representable. -/
theorem hashString_lt_two_pow_53 (str : JsString) (seed : Nat) :
    hashString str seed < 9007199254740992 := by
  unfold hashString
  exact digest_bound _ (xor_lt_u32 (imul_lt _ _) (imul_lt _ _))

theorem foldl_xor_u32_leftcomm (a b c : Nat) :
    ((a % 4294967296) ^^^ (b % 4294967296)) % 4294967296 ^^^ (c % 4294967296) =
    ((a % 4294967296) ^^^ (c % 4294967296)) % 4294967296 ^^^ (b % 4294967296) := by
  have hab : (a % 4294967296) ^^^ (b % 4294967296) < 4294967296 :=
    xor_lt_u32 (Nat.mod_lt _ (by norm_num)) (Nat.mod_lt _ (by norm_num))
  have hac : (a % 4294967296) ^^^ (c % 4294967296) < 4294967296 :=
    xor_lt_u32 (Nat.mod_lt _ (by norm_num)) (Nat.mod_lt _ (by norm_num))
  rw [Nat.mod_eq_of_lt hab, Nat.mod_eq_of_lt hac, Nat.xor_assoc, Nat.xor_assoc,
    Nat.xor_comm (b % 4294967296) (c % 4294967296)]

theorem foldl_xor_u32_perm {l1 l2 : List Nat} (p : l1.Perm l2) :
    ∀ a : Nat,
      l1.foldl (fun a b => (a % 4294967296) ^^^ (b % 4294967296)) a =
      l2.foldl (fun a b => (a % 4294967296) ^^^ (b % 4294967296)) a := by
  induction p with
  | nil => intro a; rfl
  | cons x _ ih => intro a; simp only [List.foldl_cons]; exact ih _
  | swap x y l =>
      intro a
      simp only [List.foldl_cons]
      rw [foldl_xor_u32_leftcomm]
  | trans _ _ ih1 ih2 => intro a; rw [ih1, ih2]

/-- C9: the structural fingerprint `hashStrings` (XOR-fold of per-string hashes,
taken modulo 2^32 as JS ToInt32 does) is invariant under any permutation of the
key list; concretely fingerprint(["a","b"]) = fingerprint(["b","a"]) while
fingerprint(["a","b"]) differs from fingerprint(["a","c"]). -/
theorem hashStrings_perm_invariant :
    (∀ l1 l2 : List JsString, l1.Perm l2 → hashStrings l1 = hashStrings l2) ∧
    hashStrings [keyA, keyB] = hashStrings [keyB, keyA] ∧
    hashStrings [keyA, keyB] ≠ hashStrings [keyA, keyC] := by
  refine ⟨?_, by decide, by decide⟩
  intro l1 l2 hp
  unfold hashStrings
  exact foldl_xor_u32_perm (hp.map (fun s => hashString s 0)) 0

/-- Witness for C9 at a concrete permutation. -/
theorem hashStrings_perm_invariant_witness :
    hashStrings [keyA, keyB, keyC] = hashStrings [keyC, keyA, keyB] :=
  hashStrings_perm_invariant.1 [keyA, keyB, keyC] [keyC, keyA, keyB] (by decide)

theorem recordGet_recordSet_self [DecidableEq α] (r : Record α) (k : JsString) (v : α) :
    recordGet (recordSet r k v) k = some v := by
  induction r with
  | nil => simp [recordSet, recordGet]
  | cons e rest ih =>
      by_cases h : e.1 = k
      · simp [recordSet, recordGet, h]
      · simp [recordSet, recordGet, h, ih]

theorem recordGet_recordSet_ne [DecidableEq α] (r : Record α) {k k2 : JsString} (v : α)
    (h : k2 ≠ k) : recordGet (recordSet r k v) k2 = recordGet r k2 := by
  have hkk : ¬ k = k2 := fun he => h he.symm
  induction r with
  | nil => simp [recordSet, recordGet, hkk]
  | cons e rest ih =>
      by_cases he : e.1 = k
      · subst he
        simp [recordSet, recordGet, hkk]
      · by_cases he2 : e.1 = k2
        · simp [recordSet, recordGet, he, he2, h, hkk]
        · simp [recordSet, recordGet, he, he2, ih]

theorem recordSet_map_fst [DecidableEq α] (r : Record α) {k : JsString} {old : α} (v : α)
    (h : recordGet r k = some old) :
    (recordSet r k v).map Prod.fst = r.map Prod.fst := by
  induction r with
  | nil => simp [recordGet] at h
  | cons e rest ih =>
      by_cases he : e.1 = k
      · simp [recordSet, he]
      · simp only [recordGet, he, if_false] at h
        simp [recordSet, he, ih h]

/-- C2: a mutator invoked with an update that resolves to the current value at
the bound position (array path) or key (record path) hands the setter a no-op
transform: the whole container comes back unchanged (the `oldElement ===
newElement` / `oldProperty === newProperty` short circuits). -/
theorem mutator_short_circuit {α : Type} [DecidableEq α] :
    (∀ (l : List α) (i : Nat) (old : α) (a : SetStateAction α),
       l[i]? = some old → evaluateSetStateAction a old = old →
       arrayElementTransform i a l = l) ∧
    (∀ (r : Record α) (k : JsString) (old : α) (a : SetStateAction α),
       recordGet r k = some old → evaluateSetStateAction a old = old →
       objectPropertyTransform k a r = r) := by
  constructor
  · intro l i old a hget heq
    simp [arrayElementTransform, replaceAtIndex, hget, heq]
  · intro r k old a hget heq
    simp [objectPropertyTransform, hget, heq]

/-- Witness for C2 at concrete containers. -/
theorem mutator_short_circuit_witness :
    arrayElementTransform 0 (SetStateAction.value 5) [5, 6] = [5, 6] ∧
    objectPropertyTransform keyA (SetStateAction.value 3) [(keyA, 3)] = [(keyA, 3)] :=
  ⟨mutator_short_circuit.1 [5, 6] 0 5 (SetStateAction.value 5) rfl rfl,
   mutator_short_circuit.2 [(keyA, 3)] keyA 3 (SetStateAction.value 3) (by decide) rfl⟩

theorem filterWithIndex_cons (keep : Nat → Bool) (j : Nat) (a : α) (t : List α) :
    filterWithIndex keep j (a :: t) =
      if keep j then a :: filterWithIndex keep (j + 1) t else filterWithIndex keep (j + 1) t :=
  rfl

theorem filterWithIndex_of_lt {p j : Nat} (h : p < j) (l : List α) :
    filterWithIndex (fun i => decide (i ≠ p)) j l = l := by
  induction l generalizing j with
  | nil => rfl
  | cons a t ih =>
      rw [filterWithIndex_cons, if_pos (decide_eq_true (by omega : j ≠ p)),
        ih (Nat.lt_succ_of_lt h)]

theorem filterWithIndex_remove {p j : Nat} (h : j ≤ p) (l : List α) :
    filterWithIndex (fun i => decide (i ≠ p)) j l = l.take (p - j) ++ l.drop (p - j + 1) := by
  induction l generalizing j with
  | nil => simp [filterWithIndex]
  | cons a t ih =>
      rcases Nat.eq_or_lt_of_le h with he | hlt
      · subst he
        rw [filterWithIndex_cons, if_neg (by simp), filterWithIndex_of_lt (Nat.lt_succ_self j)]
        simp
      · have hs : j + 1 ≤ p := hlt
        have h1 : p - j = (p - (j + 1)) + 1 := by omega
        rw [filterWithIndex_cons, if_pos (decide_eq_true (by omega : j ≠ p)), ih hs, h1]
        simp [List.take_succ_cons, List.drop_succ_cons]

/-- C5: the remover bound to position `p` hands the setter a transform that, on
any current sequence, keeps exactly the elements whose position differs from
`p` in their original relative order (`take p ++ drop (p+1)`), and shortens the
sequence by exactly one when `p` is a valid index. -/
theorem remover_removes_at_index {α : Type} (l : List α) (p : Nat) :
    deleteActionTransform p l = l.take p ++ l.drop (p + 1) ∧
    (p < l.length → (deleteActionTransform p l).length = l.length - 1) := by
  have he : deleteActionTransform p l = l.take p ++ l.drop (p + 1) := by
    have := filterWithIndex_remove (Nat.zero_le p) l
    simpa [deleteActionTransform] using this
  refine ⟨he, fun hp => ?_⟩
  rw [he]
  simp only [List.length_append, List.length_take, List.length_drop]
  omega

/-- Witness for C5: removing position 1 from a three-element sequence. -/
theorem remover_removes_at_index_witness :
    (deleteActionTransform 1 [10, 20, 30] : List Nat).length = 3 - 1 :=
  (remover_removes_at_index [10, 20, 30] 1).2 (by decide)

/-- C6: when the resolved candidate differs from the old value, the transform
handed to the setter produces a shallow copy of the application-time whole in
which only the bound position/key holds the new value: length/key set is
preserved, the bound position/key reads the candidate, and every other
position/key reads its previous value.  The transform is quantified over the
whole container `l` (resp. `r`) supplied at application time, so the setter
always receives a transform of the previous whole, never a snapshot captured at
synthesis time. -/
theorem mutator_frame {α : Type} [DecidableEq α] :
    (∀ (l : List α) (i : Nat) (old : α) (a : SetStateAction α),
       l[i]? = some old → evaluateSetStateAction a old ≠ old →
       (arrayElementTransform i a l).length = l.length ∧
       (arrayElementTransform i a l)[i]? = some (evaluateSetStateAction a old) ∧
       (∀ j : Nat, j ≠ i → (arrayElementTransform i a l)[j]? = l[j]?)) ∧
    (∀ (r : Record α) (k : JsString) (old : α) (a : SetStateAction α),
       recordGet r k = some old → evaluateSetStateAction a old ≠ old →
       recordGet (objectPropertyTransform k a r) k = some (evaluateSetStateAction a old) ∧
       (∀ k2 : JsString, k2 ≠ k → recordGet (objectPropertyTransform k a r) k2 = recordGet r k2) ∧
       (objectPropertyTransform k a r).map Prod.fst = r.map Prod.fst) := by
  constructor
  · intro l i old a hget hne
    have hlt : i < l.length := (List.getElem?_eq_some_iff.mp hget).1
    have hne2 : ¬ old = evaluateSetStateAction a old := fun he => hne he.symm
    have htr : arrayElementTransform i a l = l.set i (evaluateSetStateAction a old) := by
      simp [arrayElementTransform, replaceAtIndex, hget, hne2]
    refine ⟨?_, ?_, ?_⟩
    · rw [htr]; exact List.length_set l i _
    · rw [htr]; exact List.getElem?_set_self hlt
    · intro j hj; rw [htr]; exact List.getElem?_set_ne (fun he => hj he.symm)
  · intro r k old a hget hne
    have hne2 : ¬ old = evaluateSetStateAction a old := fun he => hne he.symm
    have htr : objectPropertyTransform k a r = recordSet r k (evaluateSetStateAction a old) := by
      simp [objectPropertyTransform, hget, hne2]
    refine ⟨?_, ?_, ?_⟩
    · rw [htr]; exact recordGet_recordSet_self r k _
    · intro k2 hk2; rw [htr]; exact recordGet_recordSet_ne r _ hk2
    · rw [htr]; exact recordSet_map_fst r _ hget

/-- Witness for C6 at concrete containers. -/
theorem mutator_frame_witness :
    (arrayElementTransform 0 (SetStateAction.value 9) [5, 6] : List Nat).length = 2 ∧
    recordGet (objectPropertyTransform keyA (SetStateAction.value 9) [(keyA, 3)]) keyA = some 9 :=
  ⟨(mutator_frame.1 [5, 6] 0 5 (SetStateAction.value 9) rfl (by decide)).1,
   (mutator_frame.2 [(keyA, 3)] keyA 3 (SetStateAction.value 9) (by decide) (by decide)).1⟩

theorem limit_eq_take (l : List α) (n : Nat) : limit l n = l.take n := by
  unfold limit
  by_cases h : l.length ≤ n
  · rw [if_pos h, List.take_of_length_le h]
  · rw [if_neg h]

theorem append_eq (offset count : Nat) (factory : Nat → α) :
    append offset count factory = (List.range count).map (fun i => factory (offset + i)) := by
  unfold append
  by_cases h : count < 1
  · have hc : count = 0 := by omega
    subst hc
    simp
  · rw [if_neg h]

theorem memoizeArray_cache_of_ne {α : Type} {ctr : Nat} {cache : ArrayCache} {array : List α}
    {s : Nat} (h : cache.length ≠ array.length) :
    (memoizeArray ctr cache array s).cache =
      cache.take array.length ++
        (List.range (array.length - cache.length)).map (fun i =>
          (Closure.mk (ctr + 2 * i) (Capture.elemSet s (cache.length + i)),
           Closure.mk (ctr + 2 * i + 1) (Capture.elemDel s (cache.length + i)))) := by
  simp only [memoizeArray]
  rw [if_pos h, limit_eq_take, append_eq]
  refine congrArg _ (List.map_congr_left fun i _ => ?_)
  simp [createArrayElementSetState, createDeleteAction, Nat.add_sub_cancel_left]

/-- C4: when the cached slot list's length differs from the current length, the
reconciled slot list is the prefix of the old list of length
min(oldLength, newLength) (entries below the minimum keep their identity), and,
when growing, one freshly synthesized (mutator, remover) pair per new trailing
position from oldLength to newLength - 1, each pair drawing fresh allocation
ids and binding the current setter and its position; the reconciled list's
length is the sequence's length. -/
theorem memoizeArray_reconcile {α : Type} (ctr : Nat) (cache : ArrayCache) (array : List α)
    (s : Nat) (hne : cache.length ≠ array.length) :
    ((memoizeArray ctr cache array s).cache =
      cache.take array.length ++
        (List.range (array.length - cache.length)).map (fun i =>
          (Closure.mk (ctr + 2 * i) (Capture.elemSet s (cache.length + i)),
           Closure.mk (ctr + 2 * i + 1) (Capture.elemDel s (cache.length + i))))) ∧
    (∀ i : Nat, i < min cache.length array.length →
      (memoizeArray ctr cache array s).cache[i]? = cache[i]?) ∧
    (memoizeArray ctr cache array s).cache.length = array.length := by
  refine ⟨memoizeArray_cache_of_ne hne, fun i hi => ?_, ?_⟩
  · rw [memoizeArray_cache_of_ne hne,
      List.getElem?_append_left (by simp [List.length_take]; omega),
      List.getElem?_take_of_lt (by omega)]
  · rw [memoizeArray_cache_of_ne hne]
    simp only [List.length_append, List.length_take, List.length_map, List.length_range]
    omega

/-- Witness for C4: growing an empty cache to two slots. -/
theorem memoizeArray_reconcile_witness :
    (memoizeArray 0 [] ([5, 6] : List Nat) 3).cache.length = 2 :=
  (memoizeArray_reconcile 0 [] ([5, 6] : List Nat) 3 (by decide)).2.2

theorem useDestucturing_arr_hit {α : Type} {h : Hook α} {array : List α} {sr s : Nat}
    {out : Output α} (hl : lookupMemo h.memo (s, DepKey.arrRef sr) = some out) :
    useDestucturing h (Composite.arr array) sr s = .ok (out, h) := by
  simp only [useDestucturing, hl]

theorem useDestucturing_arr_miss {α : Type} {h : Hook α} {array : List α} {sr s : Nat}
    (hl : lookupMemo h.memo (s, DepKey.arrRef sr) = none) :
    useDestucturing h (Composite.arr array) sr s =
      .ok (Output.arrOut (memoizeArray h.counter (currentArrayCache h.refCurrent) array s).output,
        Hook.mk (memoizeArray h.counter (currentArrayCache h.refCurrent) array s).counter
          (some (RefCache.arrCache (memoizeArray h.counter (currentArrayCache h.refCurrent) array s).cache))
          (some ((s, DepKey.arrRef sr),
            Output.arrOut (memoizeArray h.counter (currentArrayCache h.refCurrent) array s).output))) := by
  simp only [useDestucturing, hl]

theorem useDestucturing_obj_hit {α : Type} {h : Hook α} {fields : Record α} {sr s : Nat}
    {out : Output α}
    (hl : lookupMemo h.memo (s, DepKey.objHash (hashStrings (fields.map Prod.fst))) = some out) :
    useDestucturing h (Composite.obj fields) sr s = .ok (out, h) := by
  simp only [useDestucturing, hl]

theorem useDestucturing_obj_miss_ok {α : Type} {h : Hook α} {fields : Record α} {sr s : Nat}
    {r : ObjectMemoResult}
    (hl : lookupMemo h.memo (s, DepKey.objHash (hashStrings (fields.map Prod.fst))) = none)
    (hobj : memoizeObject h.counter (currentObjectCache h.refCurrent) (fields.map Prod.fst) s =
      .ok r) :
    useDestucturing h (Composite.obj fields) sr s =
      .ok (Output.objOut r.methods,
        Hook.mk r.counter (some (RefCache.objCache r.cache))
          (some ((s, DepKey.objHash (hashStrings (fields.map Prod.fst))),
            Output.objOut r.methods))) := by
  simp only [useDestucturing, hl, hobj]

theorem useDestucturing_obj_miss_error {α : Type} {h : Hook α} {fields : Record α} {sr s : Nat}
    {e : UsageError}
    (hl : lookupMemo h.memo (s, DepKey.objHash (hashStrings (fields.map Prod.fst))) = none)
    (hobj : memoizeObject h.counter (currentObjectCache h.refCurrent) (fields.map Prod.fst) s =
      .error e) :
    useDestucturing h (Composite.obj fields) sr s = .error e := by
  simp only [useDestucturing, hl, hobj]

/-- C3: a derivation that succeeded is idempotent: repeating the call with the
same composite reference and the same setter reference returns the very same
output (hence reference-identical mutators and removers) and leaves the call
site state untouched; and when the cached slot list's length equals the current
sequence length, sequence reconciliation keeps the cached slot list itself
(same list, no fresh allocation). -/
theorem derivation_idempotent {α : Type} :
    (∀ (h h2 : Hook α) (input : Composite α) (stateRef setterRef : Nat) (out : Output α),
       useDestucturing h input stateRef setterRef = .ok (out, h2) →
       useDestucturing h2 input stateRef setterRef = .ok (out, h2)) ∧
    (∀ (ctr : Nat) (cache : ArrayCache) (array : List α) (s : Nat),
       cache.length = array.length →
       (memoizeArray ctr cache array s).cache = cache ∧
       (memoizeArray ctr cache array s).counter = ctr) := by
  constructor
  · intro h h2 input stateRef setterRef out hstep
    cases input with
    | nullValue => simp [useDestucturing] at hstep
    | scalar => simp [useDestucturing] at hstep
    | arr array =>
        cases hl : lookupMemo h.memo (setterRef, DepKey.arrRef stateRef) with
        | some out0 =>
            rw [useDestucturing_arr_hit hl] at hstep
            simp only [Except.ok.injEq, Prod.mk.injEq] at hstep
            obtain ⟨ho, hh⟩ := hstep
            subst ho
            subst hh
            exact useDestucturing_arr_hit hl
        | none =>
            rw [useDestucturing_arr_miss hl] at hstep
            simp only [Except.ok.injEq, Prod.mk.injEq] at hstep
            obtain ⟨ho, hh⟩ := hstep
            subst ho
            subst hh
            apply useDestucturing_arr_hit
            simp [lookupMemo]
    | obj fields =>
        cases hl : lookupMemo h.memo
            (setterRef, DepKey.objHash (hashStrings (fields.map Prod.fst))) with
        | some out0 =>
            rw [useDestucturing_obj_hit hl] at hstep
            simp only [Except.ok.injEq, Prod.mk.injEq] at hstep
            obtain ⟨ho, hh⟩ := hstep
            subst ho
            subst hh
            exact useDestucturing_obj_hit hl
        | none =>
            cases hobj : memoizeObject h.counter (currentObjectCache h.refCurrent)
                (fields.map Prod.fst) setterRef with
            | error e =>
                rw [useDestucturing_obj_miss_error hl hobj] at hstep
                cases hstep
            | ok r =>
                rw [useDestucturing_obj_miss_ok hl hobj] at hstep
                simp only [Except.ok.injEq, Prod.mk.injEq] at hstep
                obtain ⟨ho, hh⟩ := hstep
                subst ho
                subst hh
                apply useDestucturing_obj_hit
                simp [lookupMemo]
  · intro ctr cache array s heq
    constructor
    · simp [memoizeArray, heq]
    · simp [memoizeArray, heq]

/-- Witness for C3: a second derivation over an unchanged reference pair, and
the equal-length fast path. -/
theorem derivation_idempotent_witness :
    useDestucturing
        (Hook.mk 0 none (some ((2, DepKey.arrRef 1),
          Output.arrOut ([] : List (Nat × Closure × Closure)))))
        (Composite.arr [7]) 1 2 =
      Except.ok (Output.arrOut [],
        Hook.mk 0 none (some ((2, DepKey.arrRef 1), Output.arrOut []))) ∧
    (memoizeArray 0 [] ([] : List Nat) 0).cache = [] :=
  ⟨derivation_idempotent.1
      (Hook.mk 0 none (some ((2, DepKey.arrRef 1), Output.arrOut [])))
      (Hook.mk 0 none (some ((2, DepKey.arrRef 1), Output.arrOut [])))
      (Composite.arr [7]) 1 2 (Output.arrOut []) rfl,
   (derivation_idempotent.2 0 [] ([] : List Nat) 0 rfl).1⟩

theorem memoizeObjectGo_spec (s : Nat) (oldMap : ObjectCache) (rest : List JsString) :
    ∀ (acc : ObjectCache) (methods : Record Closure) (ctr : Nat) (r : ObjectMemoResult),
      memoizeObjectGo s oldMap rest acc methods ctr = .ok r →
      ((∀ k, k ∉ rest → recordGet r.cache k = recordGet acc k) ∧
       (∀ k, (recordGet r.cache k).isSome = true ↔
          (k ∈ rest ∨ (recordGet acc k).isSome = true)) ∧
       (∀ k v, recordGet oldMap k = some v → (k ∈ rest ∨ recordGet acc k = some v) →
          recordGet r.cache k = some v) ∧
       (∀ k, k ∈ rest → recordGet oldMap k = none →
          ∃ c, ctr ≤ c ∧ recordGet r.cache k = some (Closure.mk c (Capture.propSet s k)))) := by
  induction rest with
  | nil =>
      intro acc methods ctr r hr
      simp only [memoizeObjectGo] at hr
      injection hr with hr2
      subst hr2
      refine ⟨fun k hk => rfl, fun k => by simp, fun k v hv hd => ?_,
        fun k hk _ => absurd hk (List.not_mem_nil k)⟩
      rcases hd with hd | hd
      · exact absurd hd (List.not_mem_nil k)
      · exact hd
  | cons key rest2 ih =>
      intro acc methods ctr r hr
      simp only [memoizeObjectGo] at hr
      split at hr
      · rename_i v0 hold
        split at hr
        · exact Except.noConfusion hr
        · rename_i capKey hcap
          obtain ⟨ih1, ih2, ih3, ih4⟩ := ih (recordSet acc key v0)
            (recordSet methods (setWord ++ capKey) v0) ctr r hr
          refine ⟨?_, ?_, ?_, ?_⟩
          · intro k hk
            simp only [List.mem_cons, not_or] at hk
            rw [ih1 k hk.2, recordGet_recordSet_ne acc v0 hk.1]
          · intro k
            rw [ih2 k]
            by_cases hkey : k = key
            · subst hkey
              constructor
              · intro _
                exact Or.inl (List.mem_cons_self k rest2)
              · intro _
                right
                rw [recordGet_recordSet_self]
                rfl
            · rw [recordGet_recordSet_ne acc v0 hkey]
              simp [List.mem_cons, hkey, or_assoc]
          · intro k v hv hd
            by_cases hkey : k = key
            · subst hkey
              have hv0 : v0 = v := by
                rw [hold] at hv
                injection hv
              subst hv0
              exact ih3 k v0 hv (Or.inr (by rw [recordGet_recordSet_self]))
            · rcases hd with hd | hd
              · rcases List.mem_cons.mp hd with he | hm
                · exact absurd he hkey
                · exact ih3 k v hv (Or.inl hm)
              · refine ih3 k v hv (Or.inr ?_)
                rw [recordGet_recordSet_ne acc v0 hkey]
                exact hd
          · intro k hk hnone
            by_cases hkey : k = key
            · subst hkey
              rw [hold] at hnone
              exact Option.noConfusion hnone
            · have hm : k ∈ rest2 := by
                rcases List.mem_cons.mp hk with he | hm2
                · exact absurd he hkey
                · exact hm2
              exact ih4 k hm hnone
      · rename_i hold
        split at hr
        · exact Except.noConfusion hr
        · rename_i capKey hcap
          obtain ⟨ih1, ih2, ih3, ih4⟩ := ih
            (recordSet acc key (createObjectPropertySetState ctr s key))
            (recordSet methods (setWord ++ capKey) (createObjectPropertySetState ctr s key))
            (ctr + 1) r hr
          refine ⟨?_, ?_, ?_, ?_⟩
          · intro k hk
            simp only [List.mem_cons, not_or] at hk
            rw [ih1 k hk.2, recordGet_recordSet_ne acc _ hk.1]
          · intro k
            rw [ih2 k]
            by_cases hkey : k = key
            · subst hkey
              constructor
              · intro _
                exact Or.inl (List.mem_cons_self k rest2)
              · intro _
                right
                rw [recordGet_recordSet_self]
                rfl
            · rw [recordGet_recordSet_ne acc _ hkey]
              simp [List.mem_cons, hkey, or_assoc]
          · intro k v hv hd
            by_cases hkey : k = key
            · subst hkey
              rw [hold] at hv
              exact Option.noConfusion hv
            · rcases hd with hd | hd
              · rcases List.mem_cons.mp hd with he | hm
                · exact absurd he hkey
                · exact ih3 k v hv (Or.inl hm)
              · refine ih3 k v hv (Or.inr ?_)
                rw [recordGet_recordSet_ne acc _ hkey]
                exact hd
          · intro k hk hnone
            by_cases hkey : k = key
            · subst hkey
              by_cases hmem : k ∈ rest2
              · obtain ⟨c, hc1, hc2⟩ := ih4 k hmem hnone
                exact ⟨c, by omega, hc2⟩
              · refine ⟨ctr, Nat.le_refl ctr, ?_⟩
                rw [ih1 k hmem, recordGet_recordSet_self]
                rfl
            · have hm : k ∈ rest2 := by
                rcases List.mem_cons.mp hk with he | hm2
                · exact absurd he hkey
                · exact hm2
              obtain ⟨c, hc1, hc2⟩ := ih4 k hm hnone
              exact ⟨c, by omega, hc2⟩

/-- C1: after a record reconciliation (`memoizeObject` over the current key
list) the new accessor cache holds an entry for exactly the current keys:
surviving keys keep the old mutator value, keys new to the composite get a
freshly allocated mutator bound to the current setter and the key (distinct, by
its fresh allocation id, from every mutator of the old cache), and no stale key
of the old cache is carried forward. -/
theorem memoizeObject_exact_keys (ctr : Nat) (oldMap : ObjectCache) (keys : List JsString)
    (s : Nat) (r : ObjectMemoResult)
    (hfresh : ∀ e ∈ oldMap, e.2.alloc < ctr)
    (hr : memoizeObject ctr oldMap keys s = .ok r) :
    (∀ k, (recordGet r.cache k).isSome = true ↔ k ∈ keys) ∧
    (∀ k v, k ∈ keys → recordGet oldMap k = some v → recordGet r.cache k = some v) ∧
    (∀ k, k ∈ keys → recordGet oldMap k = none →
       ∃ c, ctr ≤ c ∧ recordGet r.cache k = some (Closure.mk c (Capture.propSet s k)) ∧
         ∀ e ∈ oldMap, e.2 ≠ Closure.mk c (Capture.propSet s k)) := by
  obtain ⟨g1, g2, g3, g4⟩ := memoizeObjectGo_spec s oldMap keys [] [] ctr r hr
  refine ⟨fun k => ?_, fun k v hk hv => g3 k v hv (Or.inl hk), fun k hk hnone => ?_⟩
  · rw [g2 k]
    simp [recordGet]
  · obtain ⟨c, hc1, hc2⟩ := g4 k hk hnone
    refine ⟨c, hc1, hc2, fun e he hcontra => ?_⟩
    have halloc := hfresh e he
    rw [hcontra] at halloc
    simp only [] at halloc
    omega

/-- Witness for C1: first reconciliation over the single key "a". -/
theorem memoizeObject_exact_keys_witness :
    (recordGet (ObjectMemoResult.mk [(keyA, Closure.mk 0 (Capture.propSet 0 keyA))]
        [([115, 101, 116, 65], Closure.mk 0 (Capture.propSet 0 keyA))] 1).cache
      keyA).isSome = true ↔ keyA ∈ [keyA] :=
  (memoizeObject_exact_keys 0 [] [keyA] 0
      (ObjectMemoResult.mk [(keyA, Closure.mk 0 (Capture.propSet 0 keyA))]
        [([115, 101, 116, 65], Closure.mk 0 (Capture.propSet 0 keyA))] 1)
      (by simp) rfl).1 keyA

theorem memoizeObjectGo_error_iff (s : Nat) (oldMap : ObjectCache) (rest : List JsString) :
    ∀ (acc : ObjectCache) (methods : Record Closure) (ctr : Nat) (e : UsageError),
      (memoizeObjectGo s oldMap rest acc methods ctr = .error e ↔
        ([] ∈ rest ∧ e = UsageError.emptyKey)) := by
  induction rest with
  | nil =>
      intro acc methods ctr e
      simp [memoizeObjectGo]
  | cons key rest2 ih =>
      intro acc methods ctr e
      simp only [memoizeObjectGo]
      split
      · split
        · rename_i e2 hcap
          cases key with
          | nil =>
              injection hcap with hcap2
              subst hcap2
              simp [List.mem_cons, eq_comm]
          | cons c cs => exact absurd hcap (by simp [capitalize])
        · rename_i capKey hcap
          rw [ih (recordSet acc key _) (recordSet methods (setWord ++ capKey) _) ctr e]
          cases key with
          | nil => exact absurd hcap (by simp [capitalize])
          | cons c cs => simp [List.mem_cons]
      · split
        · rename_i e2 hcap
          cases key with
          | nil =>
              injection hcap with hcap2
              subst hcap2
              simp [List.mem_cons, eq_comm]
          | cons c cs => exact absurd hcap (by simp [capitalize])
        · rename_i capKey hcap
          rw [ih (recordSet acc key _) (recordSet methods (setWord ++ capKey) _) (ctr + 1) e]
          cases key with
          | nil => exact absurd hcap (by simp [capitalize])
          | cons c cs => simp [List.mem_cons]

/-- C8: on a call site's first render (empty memo slot) the derivation raises a
UsageError exactly when the composite is null or a non-composite scalar, or, on
the record path, some field identifier is the empty string; and the raised
error is the shape error exactly on non-composites (on the record path it is
the empty-identifier error), there being no other error kind. -/
theorem usage_error_iff {α : Type} (h : Hook α) (input : Composite α)
    (stateRef setterRef : Nat) (hm : h.memo = none) :
    ((∃ e, useDestucturing h input stateRef setterRef = .error e) ↔
      (isObjectOrArray input = false ∨
        ∃ fields, input = Composite.obj fields ∧ [] ∈ fields.map Prod.fst)) ∧
    (∀ e, useDestucturing h input stateRef setterRef = .error e →
      (e = UsageError.notComposite ↔ isObjectOrArray input = false)) := by
  cases input with
  | nullValue =>
      refine ⟨⟨fun _ => Or.inl rfl, fun _ => ⟨UsageError.notComposite, rfl⟩⟩, fun e he => ?_⟩
      simp only [useDestucturing] at he
      injection he with he2
      subst he2
      simp [isObjectOrArray]
  | scalar =>
      refine ⟨⟨fun _ => Or.inl rfl, fun _ => ⟨UsageError.notComposite, rfl⟩⟩, fun e he => ?_⟩
      simp only [useDestucturing] at he
      injection he with he2
      subst he2
      simp [isObjectOrArray]
  | arr array =>
      have hmiss : lookupMemo h.memo (setterRef, DepKey.arrRef stateRef) = none := by
        rw [hm]
        rfl
      have hstep := @useDestucturing_arr_miss α h array stateRef setterRef hmiss
      constructor
      · constructor
        · rintro ⟨e, he⟩
          rw [hstep] at he
          cases he
        · intro hc
          rcases hc with hc | ⟨fields, hf, _⟩
          · simp [isObjectOrArray] at hc
          · cases hf
      · intro e he
        rw [hstep] at he
        cases he
  | obj fields =>
      have hmiss : lookupMemo h.memo
          (setterRef, DepKey.objHash (hashStrings (fields.map Prod.fst))) = none := by
        rw [hm]
        rfl
      cases hobj : memoizeObject h.counter (currentObjectCache h.refCurrent)
          (fields.map Prod.fst) setterRef with
      | error e0 =>
          have hstep := @useDestucturing_obj_miss_error α h fields stateRef setterRef e0 hmiss hobj
          have hmem :=
            (memoizeObjectGo_error_iff setterRef (currentObjectCache h.refCurrent)
              (fields.map Prod.fst) [] [] h.counter e0).mp hobj
          refine ⟨⟨fun _ => Or.inr ⟨fields, rfl, hmem.1⟩, fun _ => ⟨e0, hstep⟩⟩, fun e he => ?_⟩
          rw [hstep] at he
          injection he with he2
          subst he2
          simp [isObjectOrArray, hmem.2]
      | ok r =>
          have hstep := @useDestucturing_obj_miss_ok α h fields stateRef setterRef r hmiss hobj
          have hnomem : [] ∉ fields.map Prod.fst := by
            intro hmem
            have hcontra : memoizeObject h.counter (currentObjectCache h.refCurrent)
                (fields.map Prod.fst) setterRef = .error UsageError.emptyKey :=
              (memoizeObjectGo_error_iff setterRef (currentObjectCache h.refCurrent)
                (fields.map Prod.fst) [] [] h.counter UsageError.emptyKey).mpr ⟨hmem, rfl⟩
            rw [hobj] at hcontra
            cases hcontra
          constructor
          · constructor
            · rintro ⟨e, he⟩
              rw [hstep] at he
              cases he
            · intro hc
              rcases hc with hc | ⟨fields2, hf, hmem⟩
              · simp [isObjectOrArray] at hc
              · injection hf with hf2
                subst hf2
                exact absurd hmem hnomem
          · intro e he
            rw [hstep] at he
            cases he

/-- Witness for C8: a scalar composite on a fresh call site raises the shape
error. -/
theorem usage_error_iff_witness :
    UsageError.notComposite = UsageError.notComposite ↔
      isObjectOrArray (Composite.scalar : Composite Nat) = false :=
  (usage_error_iff (initialHook : Hook Nat) Composite.scalar 0 0 rfl).2
    UsageError.notComposite rfl

/-- C7: the record path reruns reconciliation exactly when the setter reference
or the key-set fingerprint differs from the memoized call: with a stored memo
keyed on (setter, fingerprint), the call returns the prior output with the call
site untouched if and only if the current setter and fingerprint match — the
record instance reference (stateRef) is not consulted, so a fresh record with
an identical key set reuses the prior output; on the sequence path the tracked
pair is (setter reference, composite reference) instead. -/
theorem record_gate_iff {α : Type} :
    (∀ (h : Hook α) (fields : Record α) (s0 f0 : Nat) (out0 : Output α) (s stateRef : Nat),
       h.memo = some ((s0, DepKey.objHash f0), out0) →
       (useDestucturing h (Composite.obj fields) stateRef s = .ok (out0, h) ↔
         (s = s0 ∧ hashStrings (fields.map Prod.fst) = f0))) ∧
    (∀ (h : Hook α) (array : List α) (s0 r0 : Nat) (out0 : Output α) (s stateRef : Nat),
       h.memo = some ((s0, DepKey.arrRef r0), out0) →
       (useDestucturing h (Composite.arr array) stateRef s = .ok (out0, h) ↔
         (s = s0 ∧ stateRef = r0))) := by
  constructor
  · intro h fields s0 f0 out0 s stateRef hm
    constructor
    · intro hstep
      by_cases hd : s = s0 ∧ hashStrings (fields.map Prod.fst) = f0
      · exact hd
      · have hne : ¬ ((s0, DepKey.objHash f0) : Deps) =
            (s, DepKey.objHash (hashStrings (fields.map Prod.fst))) := by
          intro hc
          rw [Prod.mk.injEq] at hc
          obtain ⟨h1, h2⟩ := hc
          rw [DepKey.objHash.injEq] at h2
          exact hd ⟨h1.symm, h2.symm⟩
        have hmiss : lookupMemo h.memo
            (s, DepKey.objHash (hashStrings (fields.map Prod.fst))) = none := by
          rw [hm]
          simp only [lookupMemo]
          rw [if_neg hne]
        cases hobj : memoizeObject h.counter (currentObjectCache h.refCurrent)
            (fields.map Prod.fst) s with
        | error e =>
            rw [useDestucturing_obj_miss_error hmiss hobj] at hstep
            cases hstep
        | ok r =>
            rw [useDestucturing_obj_miss_ok hmiss hobj] at hstep
            simp only [Except.ok.injEq, Prod.mk.injEq] at hstep
            obtain ⟨ho, hh⟩ := hstep
            have hmemo := congrArg Hook.memo hh
            rw [hm] at hmemo
            simp only [Option.some.injEq, Prod.mk.injEq] at hmemo
            obtain ⟨⟨h1, h2⟩, _⟩ := hmemo
            rw [DepKey.objHash.injEq] at h2
            exact ⟨h1, h2⟩
    · rintro ⟨hs, hf⟩
      subst hs
      apply useDestucturing_obj_hit
      rw [hm, hf]
      simp [lookupMemo]
  · intro h array s0 r0 out0 s stateRef hm
    constructor
    · intro hstep
      by_cases hd : s = s0 ∧ stateRef = r0
      · exact hd
      · have hne : ¬ ((s0, DepKey.arrRef r0) : Deps) = (s, DepKey.arrRef stateRef) := by
          intro hc
          rw [Prod.mk.injEq] at hc
          obtain ⟨h1, h2⟩ := hc
          rw [DepKey.arrRef.injEq] at h2
          exact hd ⟨h1.symm, h2.symm⟩
        have hmiss : lookupMemo h.memo (s, DepKey.arrRef stateRef) = none := by
          rw [hm]
          simp only [lookupMemo]
          rw [if_neg hne]
        rw [useDestucturing_arr_miss hmiss] at hstep
        simp only [Except.ok.injEq, Prod.mk.injEq] at hstep
        obtain ⟨ho, hh⟩ := hstep
        have hmemo := congrArg Hook.memo hh
        rw [hm] at hmemo
        simp only [Option.some.injEq, Prod.mk.injEq] at hmemo
        obtain ⟨⟨h1, h2⟩, _⟩ := hmemo
        rw [DepKey.arrRef.injEq] at h2
        exact ⟨h1, h2⟩
    · rintro ⟨hs, hr⟩
      subst hs
      subst hr
      apply useDestucturing_arr_hit
      rw [hm]
      simp [lookupMemo]

/-- Witness for C7: a record memo hit with a different instance reference, and
a sequence memo hit with matching references. -/
theorem record_gate_iff_witness :
    useDestucturing
        (Hook.mk 0 none (some ((5, DepKey.objHash (hashStrings [keyA])),
          Output.objOut ([] : Record Closure))) : Hook Nat)
        (Composite.obj [(keyA, 0)]) 99 5 =
      Except.ok (Output.objOut [],
        Hook.mk 0 none (some ((5, DepKey.objHash (hashStrings [keyA])), Output.objOut []))) ∧
    useDestucturing
        (Hook.mk 0 none (some ((5, DepKey.arrRef 7),
          Output.arrOut ([] : List (Nat × Closure × Closure)))))
        (Composite.arr [3]) 7 5 =
      Except.ok (Output.arrOut [],
        Hook.mk 0 none (some ((5, DepKey.arrRef 7), Output.arrOut []))) :=
  ⟨(record_gate_iff.1
      (Hook.mk 0 none (some ((5, DepKey.objHash (hashStrings [keyA])), Output.objOut [])))
      [(keyA, 0)] 5 (hashStrings [keyA]) (Output.objOut []) 5 99 rfl).mpr ⟨rfl, rfl⟩,
   (record_gate_iff.2
      (Hook.mk 0 none (some ((5, DepKey.arrRef 7), Output.arrOut [])))
      [3] 5 7 (Output.arrOut []) 5 7 rfl).mpr ⟨rfl, rfl⟩⟩
